import Mathlib

/-!
Verification development for the lightweight HDFM vulnerability-prioritization
pipeline.  The Python sources are shallowly embedded: float arithmetic is
modelled over an arbitrary linear ordered field (instantiated at `ℚ` for the
executable pipeline stages and at `ℝ` for the Shannon-entropy weighting, which
needs the real logarithm), Python dicts keyed by strings are modelled as
insertion-ordered association lists, and Python exceptions as `Except`.
-/

/-- Priority levels (core/entities.py, `Priority`). -/
inductive Priority where
  | critical
  | high
  | medium
  | low
deriving DecidableEq, Repr

/-- Vulnerability finding (core/entities.py, `Vulnerability`).  Numeric fields
are `α` (Python floats); `__post_init__` string coercion is reflected at the
construction sites that pass strings (the dummy finding's severity "INFO"
coerces to 0.0). -/
structure Vuln (α : Type) where
  id : String
  component_ref : String
  component_name : String
  cvss_score : α
  cvss_vector : String
  description : String
  severity : α
  tcs : α
  vei : α
  epss : α
  kev : Bool
  exploitability : α
  hdfm_score : α
  priority : Priority
deriving DecidableEq, Repr

/-- The metric-weights dict (`Dict[str, float]` over the four metric keys).
A key absent from the Python dict is a `none` field. -/
structure WeightsMap (α : Type) where
  severity : Option α
  tcs : Option α
  vei : Option α
  exploitability : Option α
deriving DecidableEq, Repr

/-- The uniform degenerate map `{severity, tcs, vei, exploitability} → 0.25`
(core/hdfm_model.py lines 42 and 62). -/
def uniformWeights {α : Type} [DivisionRing α] : WeightsMap α :=
  { severity := some 0.25, tcs := some 0.25, vei := some 0.25,
    exploitability := some 0.25 }

/-- The empty dict `{}` passed as `entropy_weights` on the empty-findings path
of `PrioritizationService.analyze`. -/
def emptyWeights {α : Type} : WeightsMap α :=
  { severity := none, tcs := none, vei := none, exploitability := none }

/-- Sum of the values of the weights dict (absent keys contribute nothing). -/
def weightsSum {α : Type} [AddCommMonoid α] (w : WeightsMap α) : α :=
  w.severity.getD 0 + w.tcs.getD 0 + w.vei.getD 0 + w.exploitability.getD 0

/-- Substring check used to model Python's `key in cvss_vector`. -/
def strHasSub (s pat : String) : Bool :=
  s.toList.tails.any (fun t => pat.toList.isPrefixOf t)

/-- `HDFMModel.calculate_vei` (core/hdfm_model.py lines 11-28): first matching
attack-vector key wins; empty or unmatched vector yields 0.5. -/
def calculate_vei {α : Type} [LinearOrderedField α] (cvss_vector : String) : α :=
  if cvss_vector = "" then 0.5
  else if strHasSub cvss_vector "AV:N" then 0.85
  else if strHasSub cvss_vector "AV:A" then 0.6
  else if strHasSub cvss_vector "AV:L" then 0.3
  else if strHasSub cvss_vector "AV:P" then 0.1
  else 0.5

/-- `HDFMModel.calculate_exploitability_fusion` (lines 30-34):
`E = 1 - (1 - epss)(1 - [kev])`. -/
def calculate_exploitability_fusion {α : Type} [LinearOrderedField α]
    (epss : α) (kev : Bool) : α :=
  1 - (1 - epss) * (1 - if kev then 1 else 0)

/-- `HDFMModel.calculate_hdfm_score` (lines 74-106): dot-product base score
with per-metric fallback weights 0.3/0.3/0.1/0.3, then the mutually exclusive
contextual branching.  The function itself does not clip; the caller
(`analyze`, line 90) clips to 1.0. -/
def calculate_hdfm_score {α : Type} [LinearOrderedField α]
    (vuln : Vuln α) (weights : WeightsMap α) (_eta : α) : α :=
  let base_score :=
    vuln.exploitability * (weights.exploitability.getD 0.3) +
    vuln.severity * (weights.severity.getD 0.3) +
    vuln.vei * (weights.vei.getD 0.1) +
    vuln.tcs * (weights.tcs.getD 0.3)
  if 9.8 ≤ vuln.cvss_score ∧ 0.7 ≤ vuln.tcs ∧ 0.5 ≤ vuln.exploitability then
    base_score * 1.5
  else if 9.0 ≤ vuln.cvss_score ∧ 0.85 ≤ vuln.vei ∧ 0.5 ≤ vuln.tcs then
    base_score * 1.2
  else if 0.8 ≤ vuln.vei ∧ 0.4 ≤ vuln.tcs then
    base_score * 1.0
  else
    base_score * 0.5

/-! ### Population statistics: numpy median and percentile models -/

/-- Ascending sort (numpy sorts ascending before taking order statistics). -/
def sortAscQ (l : List ℚ) : List ℚ := List.insertionSort (· ≤ ·) l

/-- `np.median`: middle element of the ascending sort for odd length, average
of the two middle elements for even length. -/
def npMedian (l : List ℚ) : ℚ :=
  let s := sortAscQ l
  let n := s.length
  if n % 2 = 1 then s.getD (n / 2) 0
  else (s.getD (n / 2 - 1) 0 + s.getD (n / 2) 0) / 2

/-- `np.percentile(l, q)` with the default linear interpolation: with the
ascending sort `s` of length `n`, the value at fractional position
`(n-1)·q/100`. -/
def npPercentile (l : List ℚ) (q : ℚ) : ℚ :=
  let s := sortAscQ l
  let n := s.length
  if n = 0 then 0
  else
    let pos := ((n : ℚ) - 1) * q / 100
    let i := (Int.floor pos).toNat
    s.getD i 0 + (pos - (i : ℚ)) * (s.getD (i + 1) 0 - s.getD i 0)

/-- `HDFMModel.calculate_epss_median` (core/hdfm_model.py lines 66-72):
`η = np.median([v.epss for v in vulnerabilities])`, 0.0 when there are no
findings. -/
def calculate_epss_median (vulnerabilities : List (Vuln ℚ)) : ℚ :=
  let epss_scores := vulnerabilities.map (·.epss)
  if epss_scores = [] then 0 else npMedian epss_scores

/-! ### Orchestrator stages (application/service/prioritization_service.py) -/

/-- Scoring step (`analyze` lines 82-90): η is computed from the population
and passed to the scoring function, and every raw score is clipped to 1.0. -/
def scoreVulns (all_vulns : List (Vuln ℚ)) (weights : WeightsMap ℚ) :
    List (Vuln ℚ) :=
  let eta := calculate_epss_median all_vulns
  all_vulns.map (fun v =>
    { v with hdfm_score := min (calculate_hdfm_score v weights eta) 1 })

/-- One step of the per-component collapse (`analyze` lines 93-102): the dict
`max_vuln_map` keyed by `component_name` keeps the finding with the strictly
highest score, first-seen wins ties, insertion order is preserved. -/
def collapseStep (m : List (String × Vuln ℚ)) (v : Vuln ℚ) :
    List (String × Vuln ℚ) :=
  match m.find? (fun p => p.1 = v.component_name) with
  | none => m ++ [(v.component_name, v)]
  | some best =>
      if best.2.hdfm_score < v.hdfm_score then
        m.map (fun p => if p.1 = v.component_name then (p.1, v) else p)
      else m

/-- Per-component collapse (`analyze` lines 92-105): `list(max_vuln_map.values())`. -/
def collapseByName (all_vulns : List (Vuln ℚ)) : List (Vuln ℚ) :=
  (all_vulns.foldl collapseStep []).map (·.2)

/-- Descending stable sort by score (`analyze` line 109). -/
def sortScoreDesc (vs : List (Vuln ℚ)) : List (Vuln ℚ) :=
  List.insertionSort (fun a b => b.hdfm_score ≤ a.hdfm_score) vs

/-- Quantile ranking and priority assignment (`analyze` lines 107-140):
thresholds come from `np.percentile` over the positive raw `hdfm_score`
population, floored at 7.0 / 4.0 (9.0 / 7.0 when that population is empty),
and each finding is labelled by comparing `hdfm_score * 10` against them. -/
def assignPriorities (all_vulns : List (Vuln ℚ)) : List (Vuln ℚ) :=
  if all_vulns = [] then all_vulns
  else
    let sorted := sortScoreDesc all_vulns
    let risky_scores := (sorted.map (·.hdfm_score)).filter (fun s => 0 < s)
    let tau_crit : ℚ :=
      if risky_scores = [] then 9 else max (npPercentile risky_scores 90) 7
    let tau_high : ℚ :=
      if risky_scores = [] then 7 else max (npPercentile risky_scores 70) 4
    sorted.map (fun v =>
      { v with priority :=
          if v.hdfm_score * 10 ≤ 0 then Priority.low
          else if tau_crit ≤ v.hdfm_score * 10 then Priority.critical
          else if tau_high ≤ v.hdfm_score * 10 then Priority.high
          else Priority.medium })

/-! Claim-side formulations of the priority assignment, written from the
specification text so they can be compared with the code model above. -/

/-- The per-finding labelling rule shared by the spec's description:
`x ≤ 0 → LOW; x ≥ τ_crit → CRITICAL; x ≥ τ_high → HIGH; else MEDIUM`. -/
def priorityRule (tau_crit tau_high x : ℚ) : Priority :=
  if x ≤ 0 then Priority.low
  else if tau_crit ≤ x then Priority.critical
  else if tau_high ≤ x then Priority.high
  else Priority.medium

/-- Spec-side thresholds as claimed: percentiles of `10·hdfm_score` over the
positive-score subpopulation R. -/
def claimThresholds (S : List (Vuln ℚ)) : ℚ × ℚ :=
  let R := (S.map (·.hdfm_score)).filter (fun s => 0 < s)
  if R = [] then (9, 7)
  else (max (npPercentile (R.map (fun s => 10 * s)) 90) 7,
        max (npPercentile (R.map (fun s => 10 * s)) 70) 4)

/-- The priority the claim's rule prescribes for a finding with raw score `s`
inside the collapsed population `S`. -/
def claimPriority (S : List (Vuln ℚ)) (s : ℚ) : Priority :=
  priorityRule (claimThresholds S).1 (claimThresholds S).2 (10 * s)

/-- Amended thresholds: identical to `claimThresholds` except that the
percentiles are taken over the raw `hdfm_score` values (not scaled by 10),
matching the code. -/
def amendedThresholds (S : List (Vuln ℚ)) : ℚ × ℚ :=
  let R := (S.map (·.hdfm_score)).filter (fun s => 0 < s)
  if R = [] then (9, 7)
  else (max (npPercentile R 90) 7, max (npPercentile R 70) 4)

/-- The priority prescribed by the amended (raw-percentile) rule. -/
def amendedPriority (S : List (Vuln ℚ)) (s : ℚ) : Priority :=
  priorityRule (amendedThresholds S).1 (amendedThresholds S).2 (10 * s)

/-! ### Components, dependencies, and the graph analyzer
(core/entities.py `Component`, infrastructure/graph/networkx_adapter.py) -/

/-- Domain component (core/entities.py `Component`).  The Python dataclass has
no `scope` attribute; `scope` here models the dynamic attribute read by
`getattr(comp, 'scope', None)` in the graph analyzer — it is `none` unless
some code sets it, and nothing in the repository ever sets it. -/
structure Comp where
  bom_ref : String
  name : String
  version : String
  purl : Option String
  scope : Option String
  vulnerabilities : List (Vuln ℚ)
  is_deprecated : Bool
deriving DecidableEq, Repr

/-- A CycloneDX dependency record `{ref, dependsOn[]}`. -/
structure Dep where
  ref : Option String
  dependsOn : List String
deriving DecidableEq, Repr

/-- All targets named in any `dependsOn[]` list; the in-degree of `t` is the
number of occurrences of `t` here (the `defaultdict` of
`NetworkXGraphAnalyzer.calculate_tcs`, lines 15-20). -/
def inDegreeTargets (dependencies : List Dep) : List String :=
  dependencies.flatMap (·.dependsOn)

/-- `max(in_degree.values()) if in_degree else 1` (line 22). -/
def maxInDegree (dependencies : List Dep) : Nat :=
  let ts := inDegreeTargets dependencies
  if ts = [] then 1 else (ts.map (fun t => ts.count t)).foldl Nat.max 0

/-- Scope priority (lines 37-44): `'required'` → 1.0, `'optional'` → 0.5,
anything else (including a missing attribute) → 0.6. -/
def scopePriority (comp : Comp) : ℚ :=
  if comp.scope = some "required" then 1.0
  else if comp.scope = some "optional" then 0.5
  else 0.6

/-- Python dict assignment `d[k] = v` on an insertion-ordered association
list: overwrite in place if the key exists, else append. -/
def dictUpsert (m : List (String × ℚ)) (k : String) (v : ℚ) :
    List (String × ℚ) :=
  if m.any (fun p => p.1 = k) then
    m.map (fun p => if p.1 = k then (k, v) else p)
  else m ++ [(k, v)]

/-- `NetworkXGraphAnalyzer.calculate_tcs` (lines 13-49):
`tcs(c) = (in_degree(c)/D + scope_priority(c)) / 2`. -/
def calculate_tcs (components : List Comp) (dependencies : List Dep) :
    List (String × ℚ) :=
  let ts := inDegreeTargets dependencies
  let max_in_degree := maxInDegree dependencies
  components.foldl (fun acc comp =>
    let degree_count := ts.count comp.bom_ref
    let normalized_degree : ℚ := (degree_count : ℚ) / (max_in_degree : ℚ)
    dictUpsert acc comp.bom_ref ((normalized_degree + scopePriority comp) / 2))
    []

/-! ### SBOM normalizer (application/service/ingestion_service.py) -/

/-- A rating entry of an inline CycloneDX vulnerability. -/
structure SbomRating where
  score : Option ℚ
  vector : Option String
deriving DecidableEq, Repr

/-- An inline `vulnerabilities[]` entry of a CycloneDX component. -/
structure SbomVulnData where
  id : Option String
  ratings : List SbomRating
  description : Option String
deriving DecidableEq, Repr

/-- A raw CycloneDX component as it appears in the JSON document.  `scope` is
among the recognized fields of the input format. -/
structure SbomComp where
  bomRef : Option String
  name : Option String
  version : Option String
  purl : Option String
  scope : Option String
  vulnerabilities : List SbomVulnData
deriving DecidableEq, Repr

/-- A CycloneDX document: `components[]` (absent ≡ empty) and
`dependencies[]`. -/
structure SbomDoc where
  components : List SbomComp
  dependencies : List Dep
deriving DecidableEq, Repr

/-- Error kinds (core/exceptions.py). -/
inductive HdfmError where
  | invalidSBOM (message : String)
deriving DecidableEq, Repr

/-- Python truthiness of an optional string: `None` and `""` are falsy
(`comp_data.get('bom-ref') or comp_data.get('purl') or ...`). -/
def truthyStr : Option String → Option String
  | some s => if s = "" then none else some s
  | none => none

/-- Parse one raw component (`parse_sbom` lines 25-57): `bom_ref` falls back
from `bom-ref` to `purl` to `name` and the component is skipped when all are
falsy; inline vulnerabilities are retained with `cvss_score =
ratings[0].score` and `severity = cvss_score / 10`.  The `scope` field of the
document is not read. -/
def parseComponent (comp_data : SbomComp) : Option Comp :=
  match truthyStr comp_data.bomRef <|> truthyStr comp_data.purl <|>
      truthyStr comp_data.name with
  | none => none
  | some bom_ref =>
      let nm := comp_data.name.getD "Unknown"
      some
        { bom_ref := bom_ref
          name := nm
          version := comp_data.version.getD "Unknown"
          purl := comp_data.purl
          scope := none
          is_deprecated := false
          vulnerabilities := comp_data.vulnerabilities.map (fun vuln_data =>
            let cvss_score := (vuln_data.ratings.head?.bind (·.score)).getD 0
            { id := vuln_data.id.getD "UNKNOWN"
              component_ref := bom_ref
              component_name := nm
              cvss_score := cvss_score
              cvss_vector := (vuln_data.ratings.head?.bind (·.vector)).getD ""
              description := vuln_data.description.getD "No description"
              severity := cvss_score / 10
              tcs := 0, vei := 0, epss := 0, kev := false
              exploitability := 0, hdfm_score := 0, priority := .low }) }

/-- `IngestionService.parse_sbom` (lines 14-57, 91, 112): raises
`InvalidSBOMException` exactly when the `components` array is absent or
empty; otherwise returns the parsed components and the dependencies carried
through untouched.  (The subsequent OSV / metadata hydration, lines 59-110,
only appends port-supplied findings and metadata and is performed against
injected ports.) -/
def parse_sbom (sbom_data : SbomDoc) :
    Except HdfmError (List Comp × List Dep) :=
  if sbom_data.components = [] then
    .error (.invalidSBOM "SBOM must contain components")
  else
    .ok (sbom_data.components.filterMap parseComponent, sbom_data.dependencies)

/-! ### Vulnerability collection (`analyze`, step 2, lines 32-54) -/

/-- `tcs_scores.get(comp.bom_ref, 0.0)`. -/
def lookupScore (m : List (String × ℚ)) (k : String) : ℚ :=
  ((m.find? (fun p => p.1 = k)).map (·.2)).getD 0

/-- The placeholder finding synthesized for a component with no findings
(`analyze` lines 42-54).  Its Python `severity` is the string "INFO", which
`Vulnerability.__post_init__` coerces to 0.0. -/
def dummyVuln (comp : Comp) : Vuln ℚ :=
  let status := if comp.is_deprecated then "DEPRECATED" else "HEALTHY"
  { id := status
    component_ref := comp.bom_ref
    component_name := comp.name
    cvss_score := 0
    cvss_vector := ""
    description := "Component is " ++ status.toLower
    severity := 0
    tcs := 0, vei := 0, epss := 0, kev := false
    exploitability := 0, hdfm_score := 0, priority := .low }

/-- Per-finding enrichment (`analyze` lines 35-40): TCS lookup, VEI from the
vector, EPSS and KEV from the threat-intelligence port, exploitability
fusion. -/
def enrichVuln (tcs_scores : List (String × ℚ)) (epssF : String → ℚ)
    (kevF : String → Bool) (comp : Comp) (v : Vuln ℚ) : Vuln ℚ :=
  let epss := epssF v.id
  let kev := kevF v.id
  { v with
      tcs := lookupScore tcs_scores comp.bom_ref
      vei := calculate_vei v.cvss_vector
      epss := epss
      kev := kev
      exploitability := calculate_exploitability_fusion epss kev }

/-- Step 2 of `analyze` (lines 32-54): every component contributes its
enriched findings, or a single placeholder finding when it has none. -/
def collectVulns (tcs_scores : List (String × ℚ)) (epssF : String → ℚ)
    (kevF : String → Bool) (components : List Comp) : List (Vuln ℚ) :=
  components.flatMap (fun comp =>
    if comp.vulnerabilities = [] then [dummyVuln comp]
    else comp.vulnerabilities.map (enrichVuln tcs_scores epssF kevF comp))

/-! ### The orchestrator with injected fallible ports
(`PrioritizationService.analyze`, lines 25-158).  Ports may raise arbitrary
Python exceptions, modelled by `PyErr`; the body runs inside `try:` and the
`except` clause prints the exception and falls off the end of the function,
returning `None`. -/

/-- An arbitrary Python exception escaping a port call. -/
structure PyErr where
  message : String
deriving DecidableEq, Repr

/-- The aggregate result (core/entities.py `AnalysisResult`).  The wall-clock
`timestamp` field is omitted from the model. -/
structure AnalysisResult where
  sbom_id : String
  total_components : Nat
  total_vulnerabilities : Nat
  critical_findings : Nat
  hub_components : Nat
  max_depth : Nat
  vulnerabilities : List (Vuln ℚ)
  entropy_weights : WeightsMap ℚ
deriving DecidableEq, Repr

/-- Step 2 of `analyze` with fallible threat-intelligence calls: an exception
from `get_epss_score` or `is_kev` propagates out of the loop. -/
def collectVulnsE (tcs_scores : List (String × ℚ))
    (epssF : String → Except PyErr ℚ) (kevF : String → Except PyErr Bool)
    (components : List Comp) : Except PyErr (List (Vuln ℚ)) :=
  components.foldlM (fun acc comp =>
    if comp.vulnerabilities = [] then
      pure (acc ++ [dummyVuln comp])
    else do
      let enriched ← comp.vulnerabilities.mapM (fun v => do
        let epss ← epssF v.id
        let kev ← kevF v.id
        pure { v with
                 tcs := lookupScore tcs_scores comp.bom_ref
                 vei := calculate_vei v.cvss_vector
                 epss := epss
                 kev := kev
                 exploitability := calculate_exploitability_fusion epss kev })
      pure (acc ++ enriched)) []

/-- The body of `analyze` (the `try:` block, lines 28-156), composed from the
injected ports: graph analyzer (`tcsF`, `maxDepthF`), threat intelligence
(`epssF`, `kevF`), the entropy-weight computation (`weightsF`, which the
concrete implementation performs over floats — see
`calculate_entropy_weights` below), and the repository (`saveF`). -/
def analyzeBody (tcsF : List Comp → List Dep → List (String × ℚ))
    (maxDepthF : List Dep → Nat) (epssF : String → Except PyErr ℚ)
    (kevF : String → Except PyErr Bool)
    (weightsF : List (Vuln ℚ) → WeightsMap ℚ)
    (saveF : String → AnalysisResult → Except PyErr Unit)
    (sbom_id : String) (components : List Comp) (dependencies : List Dep) :
    Except PyErr AnalysisResult := do
  let tcs_scores := tcsF components dependencies
  let all_vulns ← collectVulnsE tcs_scores epssF kevF components
  if all_vulns = [] then
    let result : AnalysisResult :=
      { sbom_id := sbom_id
        total_components := components.length
        total_vulnerabilities := 0
        critical_findings := 0
        hub_components := (tcs_scores.filter (fun p => (0.7 : ℚ) < p.2)).length
        max_depth := maxDepthF dependencies
        vulnerabilities := []
        entropy_weights := emptyWeights }
    let _ ← saveF sbom_id result
    pure result
  else
    let weights := weightsF all_vulns
    let scored := scoreVulns all_vulns weights
    let collapsed := collapseByName scored
    let final := assignPriorities collapsed
    let result : AnalysisResult :=
      { sbom_id := sbom_id
        total_components := components.length
        total_vulnerabilities := final.length
        critical_findings :=
          (final.filter (fun v => v.priority == Priority.critical)).length
        hub_components := (tcs_scores.filter (fun p => (0.7 : ℚ) < p.2)).length
        max_depth := maxDepthF dependencies
        vulnerabilities := final
        entropy_weights := weights }
    let _ ← saveF sbom_id result
    pure result

/-- `PrioritizationService.analyze` (lines 25-158): the whole body is wrapped
in `try: ... except Exception as e: print(e)`, so any exception is swallowed
and the method returns `None`. -/
def analyze (tcsF : List Comp → List Dep → List (String × ℚ))
    (maxDepthF : List Dep → Nat) (epssF : String → Except PyErr ℚ)
    (kevF : String → Except PyErr Bool)
    (weightsF : List (Vuln ℚ) → WeightsMap ℚ)
    (saveF : String → AnalysisResult → Except PyErr Unit)
    (sbom_id : String) (components : List Comp) (dependencies : List Dep) :
    Option AnalysisResult :=
  (analyzeBody tcsF maxDepthF epssF kevF weightsF saveF sbom_id components
    dependencies).toOption

/-! ### OSV deduplication (infrastructure/clients/osv_client.py) -/

/-- The slice of an OSV record that deduplication looks at. -/
structure OsvRec where
  id : String
  aliases : List String
deriving DecidableEq, Repr

/-- All identifiers of a record: its id and its aliases. -/
def recIds (v : OsvRec) : List String := v.id :: v.aliases

/-- First pass of `_deduplicate_vulnerabilities` (lines 130-136): when the
incoming id was seen before, find the first group containing a record whose
id equals it or whose aliases contain it. -/
def findGroupById (groups : List (String × List OsvRec)) (rid : String) :
    Option String :=
  (groups.find? (fun g =>
    g.2.any (fun v => v.id == rid || v.aliases.contains rid))).map (·.1)

/-- Second pass (lines 139-148): find the first group whose collected
ids-and-aliases contain the incoming id or intersect its aliases. -/
def findGroupByOverlap (groups : List (String × List OsvRec)) (r : OsvRec) :
    Option String :=
  (groups.find? (fun g =>
    let group_ids := g.2.flatMap recIds
    group_ids.contains r.id || r.aliases.any (group_ids.contains ·))).map (·.1)

/-- Append a record to the group with the given key, in place. -/
def addToGroup (groups : List (String × List OsvRec)) (gid : String)
    (r : OsvRec) : List (String × List OsvRec) :=
  groups.map (fun g => if g.1 = gid then (g.1, g.2 ++ [r]) else g)

/-- One iteration of the grouping loop (lines 123-156).  State: the
insertion-ordered `vuln_groups` dict and the `seen_ids` set (modelled as the
list of ids added so far; only membership is used). -/
def dedupStep (st : List (String × List OsvRec) × List String) (r : OsvRec) :
    List (String × List OsvRec) × List String :=
  let (groups, seen) := st
  let viaId := if seen.contains r.id then findGroupById groups r.id else none
  let found_group := viaId <|> findGroupByOverlap groups r
  let groups2 :=
    match found_group with
    | some gid => addToGroup groups gid r
    | none => groups ++ [(r.id, [r])]
  (groups2, seen ++ recIds r)

/-- The grouping phase of `_deduplicate_vulnerabilities`. -/
def dedupGroups (osv_vulns : List OsvRec) : List (String × List OsvRec) :=
  (osv_vulns.foldl dedupStep ([], [])).1

/-- Python's `str.startswith`, modelled structurally over the character
list. -/
def strStarts (s pre : String) : Bool :=
  pre.toList.isPrefixOf s.toList

/-- `_pick_best_vulnerability` (lines 168-182): first CVE-prefixed record,
else first GHSA-prefixed record, else the first record; `none` for an empty
group. -/
def pickBestVulnerability (osv_group : List OsvRec) : Option OsvRec :=
  match osv_group.filter (fun v => strStarts v.id "CVE-") with
  | c :: _ => some c
  | [] =>
      match osv_group.filter (fun v => strStarts v.id "GHSA-") with
      | h :: _ => some h
      | [] => osv_group.head?

/-- `_deduplicate_vulnerabilities` (lines 118-166), at the level of OSV
records: group, then pick one representative per group. -/
def deduplicateVulnerabilities (osv_vulns : List OsvRec) : List OsvRec :=
  (dedupGroups osv_vulns).filterMap (fun g => pickBestVulnerability g.2)

/-- The claim's direct relation between two OSV records:
`(id ∈ other.aliases) ∨ (aliases ∩ other.aliases ≠ ∅)` (symmetrized). -/
def claimRel (a b : OsvRec) : Prop :=
  a.id ∈ b.aliases ∨ b.id ∈ a.aliases ∨ ∃ x, x ∈ a.aliases ∧ x ∈ b.aliases

/-- The relation the code's grouping actually tests: additionally two records
with the *same id* overlap. -/
def codeRel (a b : OsvRec) : Prop :=
  a.id = b.id ∨ a.id ∈ b.aliases ∨ b.id ∈ a.aliases ∨
    ∃ x, x ∈ a.aliases ∧ x ∈ b.aliases

/-- Membership of two records in one equivalence class produced by the
grouping. -/
def inSameGroup (groups : List (String × List OsvRec)) (a b : OsvRec) : Prop :=
  ∃ g ∈ groups, a ∈ g.2 ∧ b ∈ g.2

instance (groups : List (String × List OsvRec)) (a b : OsvRec) :
    Decidable (inSameGroup groups a b) := by
  unfold inSameGroup; infer_instance

/-! ### Shannon-entropy weighting (core/hdfm_model.py lines 36-64), over ℝ
because it uses the logarithm. -/

/-- A row of the scratch metrics dataframe built by `analyze` lines 73-78. -/
structure MetricsRow where
  severity : ℝ
  tcs : ℝ
  vei : ℝ
  exploitability : ℝ

/-- The dataframe built from the finding population (`analyze` lines 73-78). -/
def metricsOf (all_vulns : List (Vuln ℝ)) : List MetricsRow :=
  all_vulns.map (fun v =>
    { severity := v.severity, tcs := v.tcs, vei := v.vei,
      exploitability := v.exploitability })

/-- Provisional weight of one metric column (`calculate_entropy_weights`
lines 47-57): 0 for a zero-sum column, otherwise `1 - H` with
`H = -k Σ p ln p` over the normalized positive entries. -/
noncomputable def colWeight (k : ℝ) (col : List ℝ) : ℝ :=
  let col_sum := col.sum
  if col_sum = 0 then 0
  else
    let p_ij_clean := (col.map (fun x => x / col_sum)).filter
      (fun p => decide (0 < p))
    let entropy := -k * ((p_ij_clean.map (fun p => p * Real.log p)).sum)
    1 - entropy

/-- `HDFMModel.calculate_entropy_weights` (lines 36-64): uniform map for at
most one finding, else per-column provisional weights with `k = 1/ln m`,
normalized to sum 1; uniform map again when all provisional weights are
zero. -/
noncomputable def calculate_entropy_weights (metrics_df : List MetricsRow) :
    WeightsMap ℝ :=
  if metrics_df.length ≤ 1 then uniformWeights
  else
    let k : ℝ := 1 / Real.log (metrics_df.length : ℝ)
    let wsev := colWeight k (metrics_df.map (·.severity))
    let wtcs := colWeight k (metrics_df.map (·.tcs))
    let wvei := colWeight k (metrics_df.map (·.vei))
    let wexp := colWeight k (metrics_df.map (·.exploitability))
    let total := wsev + wtcs + wvei + wexp
    if total = 0 then uniformWeights
    else
      { severity := some (wsev / total), tcs := some (wtcs / total),
        vei := some (wvei / total), exploitability := some (wexp / total) }

/-- The documented value ranges of a finding's metrics (spec §3: `cvss_score ∈
[0,10]`, the derived metrics in `[0,1]`). -/
def vulnRanges (v : Vuln ℝ) : Prop :=
  0 ≤ v.cvss_score ∧ v.cvss_score ≤ 10 ∧
  0 ≤ v.severity ∧ v.severity ≤ 1 ∧
  0 ≤ v.tcs ∧ v.tcs ≤ 1 ∧
  0 ≤ v.vei ∧ v.vei ≤ 1 ∧
  0 ≤ v.epss ∧ v.epss ≤ 1 ∧
  0 ≤ v.exploitability ∧ v.exploitability ≤ 1

/-! ### Spec-side formulations used by individual claims -/

/-- The base weighted score as the spec's formula states it:
`base = E·w_expl + severity·w_sev + vei·w_vei + tcs·w_tcs` with fallback
weights 0.3/0.3/0.1/0.3. -/
def hdfmBaseSpec (v : Vuln ℚ) (w : WeightsMap ℚ) : ℚ :=
  v.exploitability * w.exploitability.getD 0.3 +
  v.severity * w.severity.getD 0.3 +
  v.vei * w.vei.getD 0.1 +
  v.tcs * w.tcs.getD 0.3

/-- The multiplier chosen by the spec's first-matching mutually exclusive
rule table. -/
def hdfmMultiplierSpec (v : Vuln ℚ) : ℚ :=
  if 9.8 ≤ v.cvss_score ∧ 0.7 ≤ v.tcs ∧ 0.5 ≤ v.exploitability then 1.5
  else if 9.0 ≤ v.cvss_score ∧ 0.85 ≤ v.vei ∧ 0.5 ≤ v.tcs then 1.2
  else if 0.8 ≤ v.vei ∧ 0.4 ≤ v.tcs then 1.0
  else 0.5

/-- The scope-priority table as the claim states it, applied to the `scope`
field of the *document's* component. -/
def claimScopePriority (scope : Option String) : ℚ :=
  if scope = some "required" then 1.0
  else if scope = some "optional" then 0.5
  else 0.6

/-! ### Concrete inputs used as counterexamples and witnesses -/

/-- A collapsed finding carrying only an id, a component name and a score. -/
def mkFinding (i nm : String) (s : ℚ) : Vuln ℚ :=
  { id := i, component_ref := nm, component_name := nm,
    cvss_score := 0, cvss_vector := "", description := "",
    severity := 0, tcs := 0, vei := 0, epss := 0, kev := false,
    exploitability := 0, hdfm_score := s, priority := .low }

/-- Two collapsed findings with clipped scores 0.75 and 0.9. -/
def c1ex : List (Vuln ℚ) := [mkFinding "a" "a" 0.75, mkFinding "b" "b" 0.9]

/-- A bare component with a given `bom_ref` and `name` and no findings. -/
def mkComp (ref nm : String) : Comp :=
  { bom_ref := ref, name := nm, version := "1.0", purl := none,
    scope := none, vulnerabilities := [], is_deprecated := false }

/-- Two distinct components that share the display name "a". -/
def c2comps : List Comp := [mkComp "r1" "a", mkComp "r2" "a"]

/-- Three OSV records: `B` lists both `A`'s and `C`'s ids as aliases, so all
three are transitively connected, while `A` and `C` share nothing directly. -/
def osvA : OsvRec := { id := "CVE-A", aliases := [] }

/-- See `osvA`. -/
def osvC : OsvRec := { id := "CVE-C", aliases := [] }

/-- See `osvA`. -/
def osvB : OsvRec := { id := "GHSA-B", aliases := ["CVE-A", "CVE-C"] }

/-- The order in which the three records reach the deduplication loop. -/
def osvRecs : List OsvRec := [osvA, osvC, osvB]

/-- A document whose single component declares `scope: "required"`. -/
def c6doc : SbomDoc :=
  { components :=
      [{ bomRef := some "a", name := some "a", version := some "1.0",
         purl := none, scope := some "required", vulnerabilities := [] }]
    dependencies := [] }

/-- A minimal real finding attached to a component, for exercising the
orchestrator's exception handling. -/
def c8vuln : Vuln ℚ :=
  { id := "CVE-2024-0001", component_ref := "r", component_name := "n",
    cvss_score := 9.8, cvss_vector := "CVSS:3.1/AV:N", description := "d",
    severity := 0.98, tcs := 0, vei := 0, epss := 0, kev := false,
    exploitability := 0, hdfm_score := 0, priority := .low }

/-- A component carrying `c8vuln`. -/
def c8comp : Comp :=
  { bom_ref := "r", name := "n", version := "1.0", purl := none,
    scope := none, vulnerabilities := [c8vuln], is_deprecated := false }

/-- Two components sharing one `bom_ref`. -/
def c10comps : List Comp := [mkComp "r" "a", mkComp "r" "b"]

/-- A zero-metrics real-valued finding (used to instantiate range theorems). -/
def zeroVulnR : Vuln ℝ :=
  { id := "z", component_ref := "z", component_name := "z",
    cvss_score := 0, cvss_vector := "", description := "",
    severity := 0, tcs := 0, vei := 0, epss := 0, kev := false,
    exploitability := 0, hdfm_score := 0, priority := .low }

/-! ### Helper lemmas -/

theorem npMedian_between (l : List ℚ) (hl : l ≠ []) :
    ∃ a ∈ l, ∃ b ∈ l, a ≤ npMedian l ∧ npMedian l ≤ b ∧
      npMedian l = (a + b) / 2 := by
  have hperm : List.Perm (sortAscQ l) l := List.perm_insertionSort _ l
  have hsort : List.Sorted (· ≤ ·) (sortAscQ l) := List.sorted_insertionSort _ l
  have hn : 0 < (sortAscQ l).length := by
    rw [hperm.length_eq]
    exact List.length_pos.mpr hl
  unfold npMedian
  by_cases hodd : (sortAscQ l).length % 2 = 1
  · rw [if_pos hodd]
    have hlt : (sortAscQ l).length / 2 < (sortAscQ l).length :=
      Nat.div_lt_self hn (by norm_num)
    rw [List.getD_eq_get _ _ hlt]
    refine ⟨_, hperm.mem_iff.mp (List.get_mem _ _ _), _,
      hperm.mem_iff.mp (List.get_mem _ _ _), le_refl _, le_refl _, by ring⟩
  · rw [if_neg hodd]
    have heven : (sortAscQ l).length % 2 = 0 := by omega
    have h2 : 2 ≤ (sortAscQ l).length := by omega
    have hlt2 : (sortAscQ l).length / 2 < (sortAscQ l).length :=
      Nat.div_lt_self hn (by norm_num)
    have hlt1 : (sortAscQ l).length / 2 - 1 < (sortAscQ l).length := by omega
    rw [List.getD_eq_get _ _ hlt1, List.getD_eq_get _ _ hlt2]
    have hab : (sortAscQ l).get ⟨_, hlt1⟩ ≤ (sortAscQ l).get ⟨_, hlt2⟩ := by
      apply hsort.rel_get_of_lt
      simp only [Fin.mk_lt_mk]
      omega
    exact ⟨_, hperm.mem_iff.mp (List.get_mem _ _ _), _,
      hperm.mem_iff.mp (List.get_mem _ _ _), by linarith, by linarith, rfl⟩

/-! ### C7 -/

/-- C7: for every finding, weights map and baseline, the pipeline's clipped
HDFM score (`min(calculate_hdfm_score(...), 1.0)`, `analyze` line 90) equals
`base · multiplier` clipped at 1.0, with `base` the fallback-weighted dot
product and the multiplier chosen by the first matching mutually exclusive
rule (1.5 / 1.2 / 1.0 / 0.5). -/
theorem C7_hdfm_score_formula (v : Vuln ℚ) (w : WeightsMap ℚ) (eta : ℚ) :
    min (calculate_hdfm_score v w eta) 1 =
      min (hdfmBaseSpec v w * hdfmMultiplierSpec v) 1 := by
  unfold calculate_hdfm_score hdfmBaseSpec hdfmMultiplierSpec
  split_ifs <;> rfl

/-! ### C9 -/

/-- C9: the baseline η is the median of the epss values across the finding
population — 0.0 on an empty population, otherwise the average of two
population members that bound it — the scoring step passes it to
`calculate_hdfm_score`, and the branching score does not consume it: the
score is identical for any two values of η. -/
theorem C9_eta_baseline :
    calculate_epss_median [] = 0
    ∧ (∀ vs : List (Vuln ℚ), vs ≠ [] →
        ∃ a ∈ vs.map (·.epss), ∃ b ∈ vs.map (·.epss),
          a ≤ calculate_epss_median vs ∧ calculate_epss_median vs ≤ b ∧
          calculate_epss_median vs = (a + b) / 2)
    ∧ (∀ (vs : List (Vuln ℚ)) (w : WeightsMap ℚ), scoreVulns vs w =
        vs.map (fun v =>
          { v with
            hdfm_score :=
              min (calculate_hdfm_score v w (calculate_epss_median vs)) 1 }))
    ∧ (∀ (v : Vuln ℚ) (w : WeightsMap ℚ) (e₁ e₂ : ℚ),
        calculate_hdfm_score v w e₁ = calculate_hdfm_score v w e₂) := by
  refine ⟨rfl, ?_, fun vs w => rfl, fun v w e₁ e₂ => rfl⟩
  intro vs hvs
  have hmap : vs.map (·.epss) ≠ [] := by
    simpa using hvs
  unfold calculate_epss_median
  rw [if_neg hmap]
  exact npMedian_between _ hmap

/-- Witness for C9: the median clause evaluated on a concrete one-element
population. -/
theorem C9_eta_baseline_witness :
    ∃ a ∈ [mkFinding "a" "a" 0.75].map (·.epss),
      ∃ b ∈ [mkFinding "a" "a" 0.75].map (·.epss),
        a ≤ calculate_epss_median [mkFinding "a" "a" 0.75] ∧
        calculate_epss_median [mkFinding "a" "a" 0.75] ≤ b ∧
        calculate_epss_median [mkFinding "a" "a" 0.75] = (a + b) / 2 :=
  C9_eta_baseline.2.1 [mkFinding "a" "a" 0.75] (by simp)

/-! ### C4 -/

/-- C4: the entropy-weighting returns the uniform map for populations of at
most one finding, and in every case the returned map sums to 1 or equals the
uniform map (the degenerate all-zero path). -/
theorem C4_entropy_weights_sum (df : List MetricsRow) :
    (df.length ≤ 1 → calculate_entropy_weights df = uniformWeights)
    ∧ (weightsSum (calculate_entropy_weights df) = 1
        ∨ calculate_entropy_weights df = uniformWeights) := by
  unfold calculate_entropy_weights
  by_cases h1 : df.length ≤ 1
  · rw [if_pos h1]
    refine ⟨fun _ => rfl, Or.inl ?_⟩
    norm_num [weightsSum, uniformWeights]
  · rw [if_neg h1]
    refine ⟨fun h => absurd h h1, ?_⟩
    dsimp only
    split_ifs with h2
    · exact Or.inr rfl
    · left
      unfold weightsSum
      simp only [Option.getD_some]
      rw [div_add_div_same, div_add_div_same, div_add_div_same, div_self h2]

/-- Witness for C4 at the empty metrics population. -/
theorem C4_entropy_weights_sum_witness :
    calculate_entropy_weights [] = uniformWeights ∧
      (weightsSum (calculate_entropy_weights []) = 1
        ∨ calculate_entropy_weights [] = uniformWeights) :=
  ⟨(C4_entropy_weights_sum []).1 (by simp), (C4_entropy_weights_sum []).2⟩

/-! ### C6 -/

/-- C6: the parser drops the document's `scope` field (`parse_sbom` never
reads it), so for the single-component document `c6doc` declaring
`scope: "required"` the pipeline computes `tcs = (0 + 0.6)/2 = 0.3`, while
the claimed table (`scope_priority = 1.0` for "required") prescribes
`(0 + 1.0)/2 = 0.5`. -/
theorem C6_scope_not_parsed :
    (parse_sbom c6doc).map (fun p => calculate_tcs p.1 p.2)
        = Except.ok [("a", 0.3)]
    ∧ (0 + claimScopePriority (some "required")) / 2 = 0.5
    ∧ (0.3 : ℚ) ≠ 0.5 := by
  refine ⟨?_, by norm_num [claimScopePriority], by norm_num⟩
  have h1 : parse_sbom c6doc = Except.ok
      ([{ bom_ref := "a", name := "a", version := "1.0", purl := none,
          scope := none, vulnerabilities := [], is_deprecated := false }],
        []) := rfl
  rw [h1]
  simp only [Except.map]
  norm_num [calculate_tcs, inDegreeTargets, maxInDegree, scopePriority,
    dictUpsert]
  split_ifs
  all_goals first
  | (simp_all; done)
  | norm_num

/-! ### C10 -/

/-- C10 counterexample: two components sharing one `bom_ref` produce a single
map entry, not one entry per input component. -/
theorem C10_counterexample :
    (calculate_tcs c10comps []).length = 1 ∧ c10comps.length = 2 := by
  constructor
  · simp +decide [c10comps, calculate_tcs, inDegreeTargets, maxInDegree,
      dictUpsert, mkComp]
  · rfl

/-! ### C8 -/

/-- C8 (amended): `parse_sbom` raises `InvalidSBOM` exactly when the
components array is absent or empty; but `analyze` wraps its whole body in
`try/except`, so whenever any injected port raises, the exception is printed
and swallowed and `analyze` returns `None` instead of surfacing the error
kind to the caller. -/
theorem C8_error_surfacing :
    (∀ doc : SbomDoc,
      (∃ m, parse_sbom doc = .error (.invalidSBOM m)) ↔ doc.components = [])
    ∧ (∀ tcsF maxDepthF epssF kevF weightsF saveF sid comps deps,
        analyze tcsF maxDepthF epssF kevF weightsF saveF sid comps deps = none
          ↔ ∃ e, analyzeBody tcsF maxDepthF epssF kevF weightsF saveF sid
              comps deps = .error e) := by
  constructor
  · intro doc
    unfold parse_sbom
    constructor
    · intro ⟨m, hm⟩
      by_cases h : doc.components = []
      · exact h
      · rw [if_neg h] at hm
        exact absurd hm (by simp)
    · intro h
      rw [if_pos h]
      exact ⟨_, rfl⟩
  · intro tcsF maxDepthF epssF kevF weightsF saveF sid comps deps
    unfold analyze
    cases analyzeBody tcsF maxDepthF epssF kevF weightsF saveF sid comps
        deps with
    | ok r => simp [Except.toOption]
    | error e => simp [Except.toOption]

/-- Witness for C8: the parse clause evaluated on the empty document. -/
theorem C8_error_surfacing_witness :
    (∃ m, parse_sbom { components := [], dependencies := [] }
        = .error (.invalidSBOM m)) :=
  (C8_error_surfacing.1 { components := [], dependencies := [] }).mpr rfl

/-- C8 counterexample: with a threat-intelligence port that raises (as the
real EPSS client can, e.g. a `ValueError` escaping `float(...)`), `analyze`
returns `None`: no result and no surfaced error kind. -/
theorem C8_counterexample :
    analyze (fun _ _ => []) (fun _ => 0)
      (fun _ => .error { message := "ValueError" }) (fun _ => .ok false)
      (fun _ => uniformWeights) (fun _ _ => .ok ()) "sbom-1" [c8comp] []
      = none := rfl

/-! ### C1 -/

/-- C1 counterexample: for the collapsed population with clipped scores
0.75 and 0.9 the code computes `p90 = 0.885` over the *raw* scores, so both
thresholds collapse to their floors (7.0 / 4.0) and the 0.75-score finding is
labelled CRITICAL, while the claim's thresholds (percentiles of
`10·hdfm_score`, here `τ_crit = 8.85`, `τ_high = 8.55`) prescribe MEDIUM for
its `x = 7.5`. -/
theorem C1_counterexample :
    (sortScoreDesc c1ex).map (·.hdfm_score) = [0.9, 0.75]
    ∧ (assignPriorities c1ex).map (·.priority)
        = [Priority.critical, Priority.critical]
    ∧ claimPriority c1ex 0.75 = Priority.medium := by
  refine ⟨?_, ?_, ?_⟩
  · norm_num [c1ex, mkFinding, sortScoreDesc, List.insertionSort,
      List.orderedInsert]
  · norm_num +decide [c1ex, mkFinding, assignPriorities, sortScoreDesc,
      List.insertionSort, List.orderedInsert, npPercentile, sortAscQ]
  · norm_num +decide [c1ex, mkFinding, claimPriority, claimThresholds,
      priorityRule, npPercentile, sortAscQ, List.insertionSort,
      List.orderedInsert]

theorem sortAscQ_congr_perm {l₁ l₂ : List ℚ} (h : List.Perm l₁ l₂) :
    sortAscQ l₁ = sortAscQ l₂ :=
  List.eq_of_perm_of_sorted
    ((List.perm_insertionSort _ l₁).trans
      (h.trans (List.perm_insertionSort _ l₂).symm))
    (List.sorted_insertionSort _ l₁) (List.sorted_insertionSort _ l₂)

theorem npPercentile_congr_perm {l₁ l₂ : List ℚ} (h : List.Perm l₁ l₂)
    (q : ℚ) : npPercentile l₁ q = npPercentile l₂ q := by
  unfold npPercentile
  rw [sortAscQ_congr_perm h]

/-- C1 (amended): the distribution-aware priority assignment holds with the
percentiles taken over the raw `hdfm_score` values of R (the code applies
`np.percentile` to `hdfm_score`, not to `10·hdfm_score`): the code's
assignment equals, finding by finding, the rule `x = 10·hdfm_score`,
`τ_crit = max(p90_raw, 7)`, `τ_high = max(p70_raw, 4)` (9.0/7.0 when R is
empty), LOW / CRITICAL / HIGH / MEDIUM by the claimed comparisons. -/
theorem C1_priority_assignment (vs : List (Vuln ℚ)) :
    assignPriorities vs = (sortScoreDesc vs).map
      (fun v => { v with priority := amendedPriority vs v.hdfm_score }) := by
  by_cases hvs : vs = []
  · subst hvs; rfl
  · unfold assignPriorities
    rw [if_neg hvs]
    dsimp only
    have hperm :
        List.Perm (((sortScoreDesc vs).map (·.hdfm_score)).filter
            (fun s => decide (0 < s)))
          ((vs.map (·.hdfm_score)).filter (fun s => decide (0 < s))) :=
      ((List.perm_insertionSort _ vs).map _).filter _
  -- threshold expressions agree with the amended thresholds
    have hnil : (((sortScoreDesc vs).map (·.hdfm_score)).filter
        (fun s => decide (0 < s)) = [])
        ↔ ((vs.map (·.hdfm_score)).filter (fun s => decide (0 < s)) = []) := by
      rw [← List.length_eq_zero, ← List.length_eq_zero, hperm.length_eq]
    have htc : (if ((sortScoreDesc vs).map (·.hdfm_score)).filter
          (fun s => decide (0 < s)) = [] then (9:ℚ)
        else max (npPercentile (((sortScoreDesc vs).map (·.hdfm_score)).filter
          (fun s => decide (0 < s))) 90) 7) = (amendedThresholds vs).1 := by
      unfold amendedThresholds
      dsimp only
      by_cases h : (vs.map (·.hdfm_score)).filter (fun s => decide (0 < s))
          = []
      · rw [if_pos (hnil.mpr h), if_pos h]
      · rw [if_neg (fun hc => h (hnil.mp hc)), if_neg h,
          npPercentile_congr_perm hperm]
    have hth : (if ((sortScoreDesc vs).map (·.hdfm_score)).filter
          (fun s => decide (0 < s)) = [] then (7:ℚ)
        else max (npPercentile (((sortScoreDesc vs).map (·.hdfm_score)).filter
          (fun s => decide (0 < s))) 70) 4) = (amendedThresholds vs).2 := by
      unfold amendedThresholds
      dsimp only
      by_cases h : (vs.map (·.hdfm_score)).filter (fun s => decide (0 < s))
          = []
      · rw [if_pos (hnil.mpr h), if_pos h]
      · rw [if_neg (fun hc => h (hnil.mp hc)), if_neg h,
          npPercentile_congr_perm hperm]
    refine List.map_congr_left ?_
    intro v _
    refine congrArg (fun p => { v with priority := p }) ?_
    rw [htc, hth]
    unfold amendedPriority priorityRule
    rw [mul_comm v.hdfm_score 10]

/-! ### C2 -/

theorem collapseStep_keys (m : List (String × Vuln ℚ)) (v : Vuln ℚ) :
    (collapseStep m v).map (·.1) =
      if v.component_name ∈ m.map (·.1) then m.map (·.1)
      else m.map (·.1) ++ [v.component_name] := by
  unfold collapseStep
  cases hf : m.find? (fun p => decide (p.1 = v.component_name)) with
  | none =>
      have hnot : v.component_name ∉ m.map (·.1) := by
        intro hmem
        obtain ⟨p, hp, hpk⟩ := List.mem_map.mp hmem
        have hfa := List.find?_eq_none.mp hf p hp
        simp only [decide_eq_true_eq] at hfa
        exact hfa hpk
      rw [if_neg hnot]
      simp
  | some best =>
      have hbk : best.1 = v.component_name := by
        have h2 := List.find?_some hf
        simpa using h2
      have hmem : v.component_name ∈ m.map (·.1) :=
        List.mem_map.mpr ⟨best, List.mem_of_find?_eq_some hf, hbk⟩
      rw [if_pos hmem]
      dsimp only
      split_ifs
      · rw [List.map_map]
        apply List.map_congr_left
        intro p _
        by_cases hpk : p.1 = v.component_name
        · simp [hpk]
        · simp [hpk]
      · rfl

theorem collapse_fold_keys_nodup (vs : List (Vuln ℚ)) :
    ∀ acc : List (String × Vuln ℚ), ((acc.map (·.1)).Nodup) →
      (((vs.foldl collapseStep acc).map (·.1)).Nodup) := by
  induction vs with
  | nil => intro acc h; simpa using h
  | cons v vs ih =>
      intro acc h
      rw [List.foldl_cons]
      apply ih
      rw [collapseStep_keys]
      split_ifs with hmem
      · exact h
      · simp [List.Nodup.append, h, hmem, List.disjoint_singleton]

theorem collapse_fold_keys_mem (vs : List (Vuln ℚ)) :
    ∀ (acc : List (String × Vuln ℚ)) (k : String),
      k ∈ (vs.foldl collapseStep acc).map (·.1) ↔
        k ∈ acc.map (·.1) ∨ k ∈ vs.map (·.component_name) := by
  induction vs with
  | nil => intro acc k; simp
  | cons v vs ih =>
      intro acc k
      rw [List.foldl_cons, ih, collapseStep_keys]
      split_ifs with hmem
      · simp only [List.map_cons, List.mem_cons]
        constructor
        · rintro (h | h)
          · exact Or.inl h
          · exact Or.inr (Or.inr h)
        · rintro (h | h | h)
          · exact Or.inl h
          · subst h
            exact Or.inl hmem
          · exact Or.inr h
      · simp only [List.mem_append, List.mem_singleton, List.map_cons,
          List.mem_cons]
        tauto

theorem collapse_length (l : List (Vuln ℚ)) :
    (collapseByName l).length = (l.map (·.component_name)).toFinset.card := by
  unfold collapseByName
  rw [List.length_map]
  have hnd : ((l.foldl collapseStep []).map (·.1)).Nodup :=
    collapse_fold_keys_nodup l [] (by simp)
  have hlen : (l.foldl collapseStep []).length
      = ((l.foldl collapseStep []).map (·.1)).length :=
    (List.length_map _ _).symm
  rw [hlen, ← List.toFinset_card_of_nodup hnd]
  congr 1
  apply Finset.ext
  intro a
  simp only [List.mem_toFinset]
  rw [collapse_fold_keys_mem l [] a]
  simp

theorem scoreVulns_names (vs : List (Vuln ℚ)) (w : WeightsMap ℚ) :
    (scoreVulns vs w).map (·.component_name) = vs.map (·.component_name) := by
  simp only [scoreVulns, List.map_map]
  rfl

theorem collectVulns_names_mem (tcsM : List (String × ℚ))
    (epssF : String → ℚ) (kevF : String → Bool) (comps : List Comp)
    (hnm : ∀ c ∈ comps, ∀ v ∈ c.vulnerabilities, v.component_name = c.name)
    (k : String) :
    k ∈ (collectVulns tcsM epssF kevF comps).map (·.component_name) ↔
      k ∈ comps.map (·.name) := by
  induction comps with
  | nil => simp [collectVulns]
  | cons c cs ih =>
      have hc := hnm c (List.mem_cons_self c cs)
      have ih' := ih (fun c' hc' v hv => hnm c' (List.mem_cons_of_mem _ hc') v hv)
      have hsplit : collectVulns tcsM epssF kevF (c :: cs)
          = (if c.vulnerabilities = [] then [dummyVuln c]
             else c.vulnerabilities.map (enrichVuln tcsM epssF kevF c))
            ++ collectVulns tcsM epssF kevF cs := rfl
      rw [hsplit, List.map_append, List.mem_append, ih']
      by_cases hv : c.vulnerabilities = []
      · rw [if_pos hv]
        have hd : (dummyVuln c).component_name = c.name := rfl
        simp [hd]
      · rw [if_neg hv, List.map_map]
        have hmapeq : c.vulnerabilities.map
            ((fun x => x.component_name) ∘ enrichVuln tcsM epssF kevF c)
            = c.vulnerabilities.map (fun v => v.component_name) :=
          List.map_congr_left (fun v _ => rfl)
        rw [hmapeq]
        simp only [List.map_cons, List.mem_cons]
        constructor
        · rintro (hin | hrest)
          · obtain ⟨v, hv', hveq⟩ := List.mem_map.mp hin
            refine Or.inl ?_
            rw [← hveq]
            exact hc v hv'
          · exact Or.inr hrest
        · rintro (h | hr)
          · obtain ⟨v0, hv0⟩ := List.exists_mem_of_ne_nil _ hv
            subst h
            exact Or.inl (List.mem_map.mpr ⟨v0, hv0, hc v0 hv0⟩)
          · exact Or.inr hr

/-- C2 (amended): after the per-component collapse the emitted finding count
equals the number of *distinct component names* — one finding per
`component_name`, not per component — for any SBOM whose findings carry their
component's name.  (With duplicate display names, distinct components merge:
see the counterexample.) -/
theorem C2_collapse_count (tcsM : List (String × ℚ)) (epssF : String → ℚ)
    (kevF : String → Bool) (w : WeightsMap ℚ) (comps : List Comp)
    (hnm : ∀ c ∈ comps, ∀ v ∈ c.vulnerabilities, v.component_name = c.name) :
    (collapseByName (scoreVulns (collectVulns tcsM epssF kevF comps) w)).length
      = (comps.map (·.name)).toFinset.card := by
  rw [collapse_length, scoreVulns_names]
  congr 1
  apply Finset.ext
  intro a
  simp only [List.mem_toFinset]
  exact collectVulns_names_mem tcsM epssF kevF comps hnm a

/-- Witness for C2's amended count on a concrete two-component SBOM. -/
theorem C2_collapse_count_witness :
    (∀ c ∈ c2comps, ∀ v ∈ c.vulnerabilities, v.component_name = c.name) ∧
    (collapseByName (scoreVulns
        (collectVulns [] (fun _ => 0) (fun _ => false) c2comps)
        uniformWeights)).length
      = (c2comps.map (·.name)).toFinset.card :=
  ⟨by simp [c2comps, mkComp],
    C2_collapse_count [] (fun _ => 0) (fun _ => false) uniformWeights c2comps
      (by simp [c2comps, mkComp])⟩

/-- C2 counterexample: two distinct parsed components named "a" (with
distinct `bom_ref`s) yield a single emitted finding after the collapse, so
the emitted count is 1 while the component count is 2. -/
theorem C2_counterexample :
    (collapseByName (scoreVulns
        (collectVulns [] (fun _ => 0) (fun _ => false) c2comps)
        uniformWeights)).length = 1
    ∧ c2comps.length = 2 := by
  constructor
  · norm_num +decide [c2comps, mkComp, collectVulns, dummyVuln, scoreVulns,
      calculate_epss_median, npMedian, sortAscQ, List.insertionSort,
      List.orderedInsert, calculate_hdfm_score, uniformWeights,
      collapseByName, collapseStep]
  · rfl

/-! ### C10 -/

theorem foldl_max_le_init (l : List Nat) (a : Nat) : a ≤ l.foldl Nat.max a := by
  induction l generalizing a with
  | nil => exact le_refl a
  | cons b l ih => exact le_trans (Nat.le_max_left a b) (ih (Nat.max a b))

theorem mem_le_foldl_max (l : List Nat) (a x : Nat) (hx : x ∈ l) :
    x ≤ l.foldl Nat.max a := by
  induction l generalizing a with
  | nil => cases hx
  | cons b l ih =>
      rw [List.foldl_cons]
      rcases List.mem_cons.mp hx with rfl | hx'
      · exact le_trans (Nat.le_max_right a x) (foldl_max_le_init l _)
      · exact ih _ hx'

theorem maxInDegree_pos (dependencies : List Dep) :
    1 ≤ maxInDegree dependencies := by
  unfold maxInDegree
  by_cases h : inDegreeTargets dependencies = []
  · rw [if_pos h]
  · rw [if_neg h]
    obtain ⟨t, ht⟩ := List.exists_mem_of_ne_nil _ h
    calc 1 ≤ (inDegreeTargets dependencies).count t :=
          List.count_pos_iff.mpr ht
      _ ≤ _ := mem_le_foldl_max _ _ _
          (List.mem_map_of_mem (fun x => (inDegreeTargets dependencies).count x) ht)

theorem count_le_maxInDegree (dependencies : List Dep) (s : String) :
    (inDegreeTargets dependencies).count s ≤ maxInDegree dependencies := by
  by_cases hc : (inDegreeTargets dependencies).count s = 0
  · rw [hc]
    exact Nat.zero_le _
  · have hs : s ∈ inDegreeTargets dependencies :=
      List.count_pos_iff.mp (Nat.pos_of_ne_zero hc)
    have hne : inDegreeTargets dependencies ≠ [] := List.ne_nil_of_mem hs
    unfold maxInDegree
    rw [if_neg hne]
    exact mem_le_foldl_max _ _ _
      (List.mem_map_of_mem (fun x => (inDegreeTargets dependencies).count x) hs)

theorem tcs_value_range (dependencies : List Dep) (comp : Comp) :
    1/4 ≤ (((inDegreeTargets dependencies).count comp.bom_ref : ℚ) /
        (maxInDegree dependencies : ℚ) + scopePriority comp) / 2
    ∧ (((inDegreeTargets dependencies).count comp.bom_ref : ℚ) /
        (maxInDegree dependencies : ℚ) + scopePriority comp) / 2 ≤ 1 := by
  have hD : (0 : ℚ) < (maxInDegree dependencies : ℚ) := by
    exact_mod_cast Nat.lt_of_lt_of_le Nat.zero_lt_one (maxInDegree_pos _)
  have hnd0 : (0 : ℚ) ≤ ((inDegreeTargets dependencies).count comp.bom_ref : ℚ)
      / (maxInDegree dependencies : ℚ) :=
    div_nonneg (by positivity) (le_of_lt hD)
  have hnd1 : ((inDegreeTargets dependencies).count comp.bom_ref : ℚ)
      / (maxInDegree dependencies : ℚ) ≤ 1 := by
    rw [div_le_one hD]
    exact_mod_cast count_le_maxInDegree dependencies comp.bom_ref
  have hsp : 1/2 ≤ scopePriority comp ∧ scopePriority comp ≤ 1 := by
    unfold scopePriority
    split_ifs <;> norm_num
  constructor <;> linarith [hsp.1, hsp.2]

theorem dictUpsert_values (P : ℚ → Prop) (m : List (String × ℚ)) (k : String)
    (v : ℚ) (hm : ∀ p ∈ m, P p.2) (hv : P v) :
    ∀ p ∈ dictUpsert m k v, P p.2 := by
  intro p hp
  unfold dictUpsert at hp
  split_ifs at hp with h
  · obtain ⟨q, hq, hqe⟩ := List.mem_map.mp hp
    by_cases hqk : q.1 = k
    · rw [if_pos hqk] at hqe
      rw [← hqe]
      exact hv
    · rw [if_neg hqk] at hqe
      rw [← hqe]
      exact hm q hq
  · rcases List.mem_append.mp hp with h' | h'
    · exact hm p h'
    · rw [List.mem_singleton.mp h']
      exact hv

theorem foldl_upsert_values (P : ℚ → Prop) (f : Comp → ℚ) (comps : List Comp) :
    ∀ acc : List (String × ℚ), (∀ p ∈ acc, P p.2) → (∀ c : Comp, P (f c)) →
      ∀ p ∈ comps.foldl (fun acc c => dictUpsert acc c.bom_ref (f c)) acc,
        P p.2 := by
  induction comps with
  | nil => intro acc hacc _ p hp; exact hacc p hp
  | cons c cs ih =>
      intro acc hacc hf p hp
      rw [List.foldl_cons] at hp
      exact ih _ (dictUpsert_values P acc c.bom_ref (f c) hacc (hf c)) hf p hp

theorem dictUpsert_keys_new (m : List (String × ℚ)) (k : String) (v : ℚ)
    (h : k ∉ m.map (·.1)) :
    (dictUpsert m k v).map (·.1) = m.map (·.1) ++ [k] := by
  unfold dictUpsert
  rw [if_neg]
  · simp
  · intro hany
    obtain ⟨p, hp, hpk⟩ := List.any_eq_true.mp hany
    simp only [decide_eq_true_eq] at hpk
    exact h (List.mem_map.mpr ⟨p, hp, hpk⟩)

theorem foldl_upsert_keys (f : Comp → ℚ) (comps : List Comp) :
    ∀ acc : List (String × ℚ),
      ((acc.map (·.1)) ++ comps.map (·.bom_ref)).Nodup →
      (comps.foldl (fun acc c => dictUpsert acc c.bom_ref (f c)) acc).map (·.1)
        = acc.map (·.1) ++ comps.map (·.bom_ref) := by
  induction comps with
  | nil => intro acc _; simp
  | cons c cs ih =>
      intro acc hnd
      have hcnotin : c.bom_ref ∉ acc.map (·.1) := by
        intro hmem
        have := (List.nodup_append.mp hnd).2.2
        exact this hmem (by simp)
      rw [List.foldl_cons]
      have hkeys := dictUpsert_keys_new acc c.bom_ref (f c) hcnotin
      have hnd' : (((dictUpsert acc c.bom_ref (f c)).map (·.1))
          ++ cs.map (·.bom_ref)).Nodup := by
        rw [hkeys, List.append_assoc, List.singleton_append]
        simpa using hnd
      rw [ih _ hnd', hkeys, List.append_assoc, List.singleton_append]
      simp

/-- C10 (amended): `calculate_tcs` returns one entry per *distinct*
`bom_ref` — in particular exactly one entry per component, keyed by
`bom_ref`, whenever the `bom_ref`s are pairwise distinct (components sharing
a `bom_ref` collapse onto one entry: see the counterexample) — and every
returned TCS value lies in `[0.25, 1.0]`, hence is never 0. -/
theorem C10_tcs_map (comps : List Comp) (dependencies : List Dep) :
    (∀ p ∈ calculate_tcs comps dependencies, 1/4 ≤ p.2 ∧ p.2 ≤ 1)
    ∧ ((comps.map (·.bom_ref)).Nodup →
        (calculate_tcs comps dependencies).map (·.1)
          = comps.map (·.bom_ref)) := by
  constructor
  · intro p hp
    unfold calculate_tcs at hp
    exact foldl_upsert_values (fun x => 1/4 ≤ x ∧ x ≤ 1)
      (fun c => (((inDegreeTargets dependencies).count c.bom_ref : ℚ) /
        (maxInDegree dependencies : ℚ) + scopePriority c) / 2)
      comps [] (by simp) (fun c => tcs_value_range dependencies c) p hp
  · intro hnd
    unfold calculate_tcs
    have := foldl_upsert_keys
      (fun c => (((inDegreeTargets dependencies).count c.bom_ref : ℚ) /
        (maxInDegree dependencies : ℚ) + scopePriority c) / 2)
      comps [] (by simpa using hnd)
    simpa using this

/-- Witness for C10 on two components with distinct `bom_ref`s. -/
theorem C10_tcs_map_witness :
    (([mkComp "r1" "a", mkComp "r2" "b"].map (·.bom_ref)).Nodup)
    ∧ (calculate_tcs [mkComp "r1" "a", mkComp "r2" "b"] []).map (·.1)
        = [mkComp "r1" "a", mkComp "r2" "b"].map (·.bom_ref) :=
  ⟨by simp [mkComp], (C10_tcs_map [mkComp "r1" "a", mkComp "r2" "b"] []).2
    (by simp [mkComp])⟩

/-! ### C5 -/

theorem codeRel_symm {a b : OsvRec} (h : codeRel a b) : codeRel b a := by
  rcases h with h | h | h | ⟨x, hx, hx'⟩
  · exact Or.inl h.symm
  · exact Or.inr (Or.inr (Or.inl h))
  · exact Or.inr (Or.inl h)
  · exact Or.inr (Or.inr (Or.inr ⟨x, hx', hx⟩))

/-- The invariant maintained by the grouping loop: members of each group are
pairwise transitively connected, group keys are distinct, every group
contains a record bearing its key, and every key has been seen. -/
def DedupInv (st : List (String × List OsvRec) × List String) : Prop :=
  (∀ g ∈ st.1, ∀ a ∈ g.2, ∀ b ∈ g.2, Relation.ReflTransGen codeRel a b)
  ∧ (st.1.map (·.1)).Nodup
  ∧ (∀ g ∈ st.1, ∃ v ∈ g.2, v.id = g.1)
  ∧ (∀ g ∈ st.1, g.1 ∈ st.2)

theorem groups_eq_of_key_eq {groups : List (String × List OsvRec)}
    (hnd : (groups.map (·.1)).Nodup) {g e : String × List OsvRec}
    (hg : g ∈ groups) (he : e ∈ groups) (hk : g.1 = e.1) : g = e := by
  induction groups with
  | nil => cases hg
  | cons hd tl ih =>
      rw [List.map_cons, List.nodup_cons] at hnd
      rcases List.mem_cons.mp hg with rfl | hg'
      · rcases List.mem_cons.mp he with rfl | he'
        · rfl
        · exact absurd (List.mem_map.mpr ⟨e, he', hk.symm⟩) hnd.1
      · rcases List.mem_cons.mp he with rfl | he'
        · exact absurd (List.mem_map.mpr ⟨g, hg', hk⟩) hnd.1
        · exact ih hnd.2 hg' he'

theorem found_group_connects {groups : List (String × List OsvRec)}
    {seen : List String} {r : OsvRec} {gid : String}
    (h : ((if seen.contains r.id then findGroupById groups r.id else none)
        <|> findGroupByOverlap groups r) = some gid) :
    ∃ e ∈ groups, e.1 = gid ∧ ∃ v ∈ e.2, codeRel r v := by
  have hcases : (if seen.contains r.id then findGroupById groups r.id
      else none) = some gid ∨ findGroupByOverlap groups r = some gid := by
    cases hf : (if seen.contains r.id then findGroupById groups r.id
        else none) with
    | some a =>
        left
        rw [hf] at h
        simpa using h
    | none =>
        right
        rw [hf] at h
        simpa using h
  rcases hcases with hf | hf
  · split_ifs at hf with hc
    · unfold findGroupById at hf
      obtain ⟨e, hfind, hek⟩ := Option.map_eq_some'.mp hf
      have hmem := List.mem_of_find?_eq_some hfind
      have hpred := List.find?_some hfind
      obtain ⟨v, hv, hvp⟩ := List.any_eq_true.mp hpred
      refine ⟨e, hmem, hek, v, hv, ?_⟩
      rw [Bool.or_eq_true] at hvp
      rcases hvp with h1 | h1
      · have hve : v.id = r.id := by simpa using h1
        exact Or.inl hve.symm
      · exact Or.inr (Or.inl (List.elem_iff.mp h1))
  · unfold findGroupByOverlap at hf
    obtain ⟨e, hfind, hek⟩ := Option.map_eq_some'.mp hf
    have hmem := List.mem_of_find?_eq_some hfind
    have hpred := List.find?_some hfind
    refine ⟨e, hmem, hek, ?_⟩
    rw [Bool.or_eq_true] at hpred
    rcases hpred with h1 | h1
    · have hid : r.id ∈ e.2.flatMap recIds := List.elem_iff.mp h1
      obtain ⟨v, hv, hvin⟩ := List.mem_flatMap.mp hid
      refine ⟨v, hv, ?_⟩
      rcases List.mem_cons.mp hvin with heq | hal
      · exact Or.inl heq
      · exact Or.inr (Or.inl hal)
    · obtain ⟨x, hx, hxin⟩ := List.any_eq_true.mp h1
      have hxg : x ∈ e.2.flatMap recIds := List.elem_iff.mp hxin
      obtain ⟨v, hv, hvin⟩ := List.mem_flatMap.mp hxg
      refine ⟨v, hv, ?_⟩
      rcases List.mem_cons.mp hvin with heq | hal
      · exact Or.inr (Or.inr (Or.inl (heq ▸ hx)))
      · exact Or.inr (Or.inr (Or.inr ⟨x, hx, hal⟩))

theorem dedupStep_inv (st : List (String × List OsvRec) × List String)
    (r : OsvRec) (hinv : DedupInv st) : DedupInv (dedupStep st r) := by
  obtain ⟨groups, seen⟩ := st
  obtain ⟨hconn, hnd, hkey, hseen⟩ := hinv
  unfold dedupStep
  dsimp only
  cases hfg : ((if seen.contains r.id then findGroupById groups r.id
      else none) <|> findGroupByOverlap groups r) with
  | none =>
      refine ⟨?_, ?_, ?_, ?_⟩
      · intro g hg a ha b hb
        rcases List.mem_append.mp hg with hg' | hg'
        · exact hconn g hg' a ha b hb
        · rw [List.mem_singleton] at hg'
          subst hg'
          rw [List.mem_singleton] at ha hb
          subst ha
          subst hb
          exact Relation.ReflTransGen.refl
      · dsimp only
        rw [List.map_append]
        have hnotin : r.id ∉ groups.map (·.1) := by
          intro hmem
          obtain ⟨g, hg, hgk⟩ := List.mem_map.mp hmem
          obtain ⟨v, hv, hvid⟩ := hkey g hg
          have hcontains : seen.contains r.id = true :=
            List.elem_iff.mpr (hgk ▸ hseen g hg)
          have hfind : findGroupById groups r.id ≠ none := by
            unfold findGroupById
            intro hnone
            have hfn := Option.map_eq_none'.mp hnone
            apply List.find?_eq_none.mp hfn g hg
            rw [List.any_eq_true]
            refine ⟨v, hv, ?_⟩
            rw [Bool.or_eq_true]
            left
            simp [hvid, hgk]
          cases hx : findGroupById groups r.id with
          | none => exact hfind hx
          | some a =>
              rw [if_pos hcontains, hx] at hfg
              simp at hfg
        simp [List.nodup_append, hnd, hnotin]
      · intro g hg
        rcases List.mem_append.mp hg with hg' | hg'
        · exact hkey g hg'
        · rw [List.mem_singleton] at hg'
          subst hg'
          exact ⟨r, List.mem_singleton.mpr rfl, rfl⟩
      · intro g hg
        rcases List.mem_append.mp hg with hg' | hg'
        · exact List.mem_append_left _ (hseen g hg')
        · rw [List.mem_singleton] at hg'
          subst hg'
          exact List.mem_append_right _ (by simp [recIds])
  | some gid =>
      obtain ⟨e, he, hegid, v, hv, hrv⟩ := found_group_connects hfg
      refine ⟨?_, ?_, ?_, ?_⟩
      · intro g' hg' a ha b hb
        unfold addToGroup at hg'
        obtain ⟨g, hg, hge⟩ := List.mem_map.mp hg'
        by_cases hgk : g.1 = gid
        · rw [if_pos hgk] at hge
          have hgeq : g = e := groups_eq_of_key_eq hnd hg he (by rw [hgk, hegid])
          have hvg : v ∈ g.2 := by rw [hgeq]; exact hv
          rw [← hge] at ha hb
          dsimp only at ha hb
          have hrv' : codeRel v r := codeRel_symm hrv
          rcases List.mem_append.mp ha with ha' | ha' <;>
            rcases List.mem_append.mp hb with hb' | hb'
          · exact hconn g hg a ha' b hb'
          · rw [List.mem_singleton] at hb'
            subst hb'
            exact (hconn g hg a ha' v hvg).trans
              (Relation.ReflTransGen.single hrv')
          · rw [List.mem_singleton] at ha'
            subst ha'
            exact Relation.ReflTransGen.head hrv (hconn g hg v hvg b hb')
          · rw [List.mem_singleton] at ha'
            rw [List.mem_singleton] at hb'
            subst ha'
            subst hb'
            exact Relation.ReflTransGen.refl
        · rw [if_neg hgk] at hge
          rw [← hge] at ha hb
          exact hconn g hg a ha b hb
      · unfold addToGroup
        have hkeys : (groups.map
            (fun g => if g.1 = gid then (g.1, g.2 ++ [r]) else g)).map (·.1)
            = groups.map (·.1) := by
          rw [List.map_map]
          apply List.map_congr_left
          intro g _
          by_cases hgk : g.1 = gid
          · simp [hgk]
          · simp [hgk]
        rw [hkeys]
        exact hnd
      · intro g' hg'
        unfold addToGroup at hg'
        obtain ⟨g, hg, hge⟩ := List.mem_map.mp hg'
        obtain ⟨w, hw, hwid⟩ := hkey g hg
        by_cases hgk : g.1 = gid
        · rw [if_pos hgk] at hge
          rw [← hge]
          exact ⟨w, List.mem_append_left _ hw, hwid⟩
        · rw [if_neg hgk] at hge
          rw [← hge]
          exact ⟨w, hw, hwid⟩
      · intro g' hg'
        unfold addToGroup at hg'
        obtain ⟨g, hg, hge⟩ := List.mem_map.mp hg'
        have hh := hseen g hg
        by_cases hgk : g.1 = gid
        · rw [if_pos hgk] at hge
          rw [← hge]
          exact List.mem_append_left _ hh
        · rw [if_neg hgk] at hge
          rw [← hge]
          exact List.mem_append_left _ hh

theorem foldl_dedup_inv (recs : List OsvRec) :
    ∀ st, DedupInv st → DedupInv (recs.foldl dedupStep st) := by
  induction recs with
  | nil => intro st h; exact h
  | cons r rs ih =>
      intro st h
      rw [List.foldl_cons]
      exact ih _ (dedupStep_inv st r h)

/-- C5 (amended): the single-pass grouping joins each record to the *first*
existing group it overlaps with and never merges groups, so what holds is the
converse of the claimed closure: any two records placed in the same
equivalence class are transitively connected under the overlap relation
(extended, as the code checks, with id equality) — transitively connected
records can still land in different classes (see the counterexample).  The
representative of each class is chosen by the preference
CVE > GHSA > first-seen. -/
theorem C5_dedup_soundness (osv_vulns : List OsvRec) :
    (∀ g ∈ dedupGroups osv_vulns, ∀ a ∈ g.2, ∀ b ∈ g.2,
      Relation.ReflTransGen codeRel a b)
    ∧ (∀ (g : List OsvRec) (r : OsvRec), pickBestVulnerability g = some r →
        r ∈ g
        ∧ ((∃ v ∈ g, strStarts v.id "CVE-" = true) →
            strStarts r.id "CVE-" = true)
        ∧ ((∃ v ∈ g, strStarts v.id "GHSA-" = true) →
            (strStarts r.id "CVE-" = true ∨ strStarts r.id "GHSA-" = true))
        ∧ ((∀ v ∈ g, strStarts v.id "CVE-" = false ∧
              strStarts v.id "GHSA-" = false) → g.head? = some r)) := by
  constructor
  · have hbase : DedupInv ([], []) := by
      refine ⟨?_, ?_, ?_, ?_⟩
      · intro g hg
        cases hg
      · simp
      · intro g hg
        cases hg
      · intro g hg
        cases hg
    have hinv : DedupInv (osv_vulns.foldl dedupStep ([], [])) :=
      foldl_dedup_inv osv_vulns ([], []) hbase
    exact fun g hg => hinv.1 g hg
  · intro g r hpick
    unfold pickBestVulnerability at hpick
    cases hcve : g.filter (fun v => strStarts v.id "CVE-") with
    | cons c cs =>
        rw [hcve] at hpick
        have hrc : r = c := by
          simpa using hpick.symm
        have hcmem0 : r ∈ g.filter (fun v => strStarts v.id "CVE-") := by
          rw [hcve, hrc]
          exact List.mem_cons_self c cs
        have hcmem := List.mem_filter.mp hcmem0
        refine ⟨hcmem.1, fun _ => hcmem.2, fun _ => Or.inl hcmem.2, ?_⟩
        intro hall
        exact absurd ((hall _ hcmem.1).1) (by rw [hcmem.2]; simp)
    | nil =>
        rw [hcve] at hpick
        have hnocve : ∀ v ∈ g, ¬ strStarts v.id "CVE-" = true := by
          intro v hvg hvp
          have : v ∈ g.filter (fun v => strStarts v.id "CVE-") :=
            List.mem_filter.mpr ⟨hvg, hvp⟩
          rw [hcve] at this
          cases this
        cases hgh : g.filter (fun v => strStarts v.id "GHSA-") with
        | cons h hs =>
            rw [hgh] at hpick
            have hrh : r = h := by
              simpa using hpick.symm
            have hhmem0 : r ∈ g.filter (fun v => strStarts v.id "GHSA-") := by
              rw [hgh, hrh]
              exact List.mem_cons_self h hs
            have hhmem := List.mem_filter.mp hhmem0
            refine ⟨hhmem.1, ?_, fun _ => Or.inr hhmem.2, ?_⟩
            · intro ⟨v, hvg, hvp⟩
              exact absurd hvp (hnocve v hvg)
            · intro hall
              exact absurd ((hall _ hhmem.1).2) (by rw [hhmem.2]; simp)
        | nil =>
            rw [hgh] at hpick
            have hrmem : r ∈ g := List.mem_of_mem_head? hpick
            refine ⟨hrmem, ?_, ?_, fun _ => hpick⟩
            · intro ⟨v, hvg, hvp⟩
              exact absurd hvp (hnocve v hvg)
            · intro ⟨v, hvg, hvp⟩
              have : v ∈ g.filter (fun v => strStarts v.id "GHSA-") :=
                List.mem_filter.mpr ⟨hvg, hvp⟩
              rw [hgh] at this
              cases this

/-- Witness for C5: the soundness clause applied to a singleton record set,
and the representative clause applied to a concrete group. -/
theorem C5_dedup_soundness_witness :
    Relation.ReflTransGen codeRel osvA osvA ∧ osvA ∈ [osvA, osvB] := by
  have h := C5_dedup_soundness [osvA]
  refine ⟨?_, ?_⟩
  · refine h.1 ("CVE-A", [osvA]) ?_ osvA ?_ osvA ?_
    · show ("CVE-A", [osvA]) ∈ dedupGroups [osvA]
      decide
    · decide
    · decide
  · exact ((C5_dedup_soundness []).2 [osvA, osvB] osvA (by decide)).1

/-- C5 counterexample: `osvB` aliases both `osvA` and `osvC`, so all three
records are transitively connected under the claimed relation, yet the
single-pass grouping files `osvB` into `osvA`'s group and leaves `osvC` in a
class of its own — the partition is not the transitive closure. -/
theorem C5_counterexample :
    Relation.ReflTransGen claimRel osvA osvC
    ∧ ¬ inSameGroup (dedupGroups osvRecs) osvA osvC := by
  constructor
  · have h1 : claimRel osvA osvB := Or.inl (by decide)
    have h2 : claimRel osvB osvC := Or.inr (Or.inl (by decide))
    exact Relation.ReflTransGen.head h1 (Relation.ReflTransGen.single h2)
  · decide

/-! ### C3 -/

theorem list_sum_map_div (l : List ℝ) (s : ℝ) :
    (l.map (fun x => x / s)).sum = l.sum / s := by
  induction l with
  | nil => simp
  | cons a l ih => simp [ih, add_div]

theorem list_sum_filter_pos (l : List ℝ) (h : ∀ x ∈ l, 0 ≤ x) :
    (l.filter (fun p => decide (0 < p))).sum = l.sum := by
  induction l with
  | nil => simp
  | cons a l ih =>
      have ha := h a (List.mem_cons_self a l)
      have ih' := ih (fun x hx => h x (List.mem_cons_of_mem a hx))
      rw [List.filter_cons]
      by_cases hpos : 0 < a
      · have hdec : decide (0 < a) = true := by simpa using hpos
        simp [hdec, ih']
      · have ha0 : a = 0 := le_antisymm (not_lt.mp hpos) ha
        simp [hpos, ha0, ih']

theorem list_sum_as_fin (l : List ℝ) :
    l.sum = ∑ i : Fin l.length, l.get i := by
  conv_lhs => rw [← List.ofFn_get l]
  rw [List.sum_ofFn]

theorem list_sum_map_as_fin (l : List ℝ) (f : ℝ → ℝ) :
    (l.map f).sum = ∑ i : Fin l.length, f (l.get i) := by
  conv_lhs => rw [← List.ofFn_get l]
  rw [List.map_ofFn, List.sum_ofFn]
  rfl

theorem neg_sum_mulLog_le_log_length (P : List ℝ) (hpos : ∀ x ∈ P, 0 < x)
    (hsum : P.sum = 1) :
    -((P.map (fun p => p * Real.log p)).sum) ≤ Real.log P.length := by
  have hne : P ≠ [] := by
    rintro rfl
    simp at hsum
  have hlen : 0 < P.length := List.length_pos.mpr hne
  have hconc : ConcaveOn ℝ (Set.Ioi 0) Real.log :=
    strictConcaveOn_log_Ioi.concaveOn
  have h0 : ∀ i ∈ Finset.univ (α := Fin P.length), 0 ≤ P.get i :=
    fun i _ => le_of_lt (hpos _ (List.get_mem _ _ _))
  have h1 : ∑ i : Fin P.length, P.get i = 1 := by
    rw [← list_sum_as_fin]
    exact hsum
  have hmem : ∀ i ∈ Finset.univ (α := Fin P.length),
      (P.get i)⁻¹ ∈ Set.Ioi (0:ℝ) :=
    fun i _ => Set.mem_Ioi.mpr (inv_pos.mpr (hpos _ (List.get_mem _ _ _)))
  have hJ := hconc.le_map_sum h0 h1 hmem
  have hsum_inv : ∑ i : Fin P.length, P.get i • (P.get i)⁻¹
      = (P.length : ℝ) := by
    have hone : ∀ i : Fin P.length, P.get i • (P.get i)⁻¹ = 1 := fun i => by
      rw [smul_eq_mul, mul_inv_cancel₀ (ne_of_gt (hpos _ (List.get_mem _ _ _)))]
    rw [Finset.sum_congr rfl (fun i _ => hone i)]
    simp
  have hlhs : ∑ i : Fin P.length, P.get i • Real.log ((P.get i)⁻¹)
      = -((P.map (fun p => p * Real.log p)).sum) := by
    rw [list_sum_map_as_fin, ← Finset.sum_neg_distrib]
    apply Finset.sum_congr rfl
    intro i _
    rw [smul_eq_mul, Real.log_inv]
    ring
  rw [hlhs, hsum_inv] at hJ
  exact hJ

theorem colWeight_nonneg (m : ℕ) (hm : 2 ≤ m) (col : List ℝ)
    (hlen : col.length = m) (hnn : ∀ x ∈ col, 0 ≤ x) :
    0 ≤ colWeight (1 / Real.log m) col := by
  unfold colWeight
  dsimp only
  split_ifs with hs
  · exact le_refl 0
  · have hsum_nn : 0 ≤ col.sum := List.sum_nonneg hnn
    have hspos : 0 < col.sum := lt_of_le_of_ne hsum_nn (Ne.symm hs)
    have hplist_nn : ∀ x ∈ col.map (fun x => x / col.sum), 0 ≤ x := by
      intro x hx
      obtain ⟨y, hy, rfl⟩ := List.mem_map.mp hx
      exact div_nonneg (hnn y hy) (le_of_lt hspos)
    have hppos : ∀ x ∈ (col.map (fun x => x / col.sum)).filter
        (fun p => decide (0 < p)), 0 < x := by
      intro x hx
      have := (List.mem_filter.mp hx).2
      simpa using this
    have hPsum : ((col.map (fun x => x / col.sum)).filter
        (fun p => decide (0 < p))).sum = 1 := by
      rw [list_sum_filter_pos _ hplist_nn, list_sum_map_div]
      exact div_self hs
    have hPne : (col.map (fun x => x / col.sum)).filter
        (fun p => decide (0 < p)) ≠ [] := by
      intro hc
      rw [hc] at hPsum
      simp at hPsum
    have hPlen : ((col.map (fun x => x / col.sum)).filter
        (fun p => decide (0 < p))).length ≤ m := by
      calc ((col.map (fun x => x / col.sum)).filter
            (fun p => decide (0 < p))).length
          ≤ (col.map (fun x => x / col.sum)).length :=
            List.length_filter_le _ _
        _ = col.length := List.length_map _ _
        _ = m := hlen
    have hPpos : 0 < ((col.map (fun x => x / col.sum)).filter
        (fun p => decide (0 < p))).length := List.length_pos.mpr hPne
    have hlogm : 0 < Real.log m :=
      Real.log_pos (by exact_mod_cast lt_of_lt_of_le one_lt_two hm)
    have hJ := neg_sum_mulLog_le_log_length _ hppos hPsum
    have hlog_le : Real.log (((col.map (fun x => x / col.sum)).filter
        (fun p => decide (0 < p))).length) ≤ Real.log m := by
      rw [Real.log_le_log_iff (by exact_mod_cast hPpos)
        (by exact_mod_cast lt_of_lt_of_le Nat.zero_lt_two hm)]
      exact_mod_cast hPlen
    have hT := le_trans hJ hlog_le
    have hk : 0 < 1 / Real.log m := by positivity
    have h2 : (1 / Real.log m) *
        (-(((col.map (fun x => x / col.sum)).filter
          (fun p => decide (0 < p))).map (fun p => p * Real.log p)).sum)
        ≤ (1 / Real.log m) * Real.log m :=
      mul_le_mul_of_nonneg_left hT (le_of_lt hk)
    rw [one_div, inv_mul_cancel₀ (ne_of_gt hlogm)] at h2
    have heq : -(1 / Real.log (m:ℝ)) *
        ((((col.map (fun x => x / col.sum)).filter
          (fun p => decide (0 < p))).map (fun p => p * Real.log p)).sum)
        = (Real.log (m:ℝ))⁻¹ *
          (-(((col.map (fun x => x / col.sum)).filter
            (fun p => decide (0 < p))).map (fun p => p * Real.log p)).sum) := by
      rw [one_div]
      ring
    linarith [h2, heq.le, heq.ge]

theorem entropy_weights_getD_nonneg (df : List MetricsRow)
    (hnn : ∀ row ∈ df, 0 ≤ row.severity ∧ 0 ≤ row.tcs ∧ 0 ≤ row.vei ∧
      0 ≤ row.exploitability) (d : ℝ) (hd : 0 ≤ d) :
    0 ≤ (calculate_entropy_weights df).severity.getD d
    ∧ 0 ≤ (calculate_entropy_weights df).tcs.getD d
    ∧ 0 ≤ (calculate_entropy_weights df).vei.getD d
    ∧ 0 ≤ (calculate_entropy_weights df).exploitability.getD d := by
  unfold calculate_entropy_weights
  by_cases h1 : df.length ≤ 1
  · rw [if_pos h1]
    norm_num [uniformWeights]
  · rw [if_neg h1]
    dsimp only
    have hm : 2 ≤ df.length := by omega
    have hwsev : 0 ≤ colWeight (1 / Real.log df.length)
        (df.map (·.severity)) := by
      apply colWeight_nonneg df.length hm _ (List.length_map _ _)
      intro x hx
      obtain ⟨row, hrow, rfl⟩ := List.mem_map.mp hx
      exact (hnn row hrow).1
    have hwtcs : 0 ≤ colWeight (1 / Real.log df.length)
        (df.map (·.tcs)) := by
      apply colWeight_nonneg df.length hm _ (List.length_map _ _)
      intro x hx
      obtain ⟨row, hrow, rfl⟩ := List.mem_map.mp hx
      exact (hnn row hrow).2.1
    have hwvei : 0 ≤ colWeight (1 / Real.log df.length)
        (df.map (·.vei)) := by
      apply colWeight_nonneg df.length hm _ (List.length_map _ _)
      intro x hx
      obtain ⟨row, hrow, rfl⟩ := List.mem_map.mp hx
      exact (hnn row hrow).2.2.1
    have hwexp : 0 ≤ colWeight (1 / Real.log df.length)
        (df.map (·.exploitability)) := by
      apply colWeight_nonneg df.length hm _ (List.length_map _ _)
      intro x hx
      obtain ⟨row, hrow, rfl⟩ := List.mem_map.mp hx
      exact (hnn row hrow).2.2.2
    split_ifs with h2
    · norm_num [uniformWeights]
    · have htot : 0 < colWeight (1 / Real.log df.length) (df.map (·.severity))
          + colWeight (1 / Real.log df.length) (df.map (·.tcs))
          + colWeight (1 / Real.log df.length) (df.map (·.vei))
          + colWeight (1 / Real.log df.length) (df.map (·.exploitability)) :=
        lt_of_le_of_ne (by linarith) (Ne.symm h2)
      refine ⟨?_, ?_, ?_, ?_⟩ <;>
        simp only [Option.getD_some] <;>
        exact div_nonneg (by linarith) (le_of_lt htot)

/-- C3: for every finding of the scored population, the pipeline's clipped
score `min(calculate_hdfm_score(v, w, η), 1.0)` lies in `[0, 1]`, where `w`
is the entropy-weight map computed from the population's metrics dataframe
and the findings' metrics respect the documented ranges. -/
theorem C3_hdfm_score_range (vs : List (Vuln ℝ)) (v : Vuln ℝ) (eta : ℝ)
    (hv : v ∈ vs) (hranges : ∀ u ∈ vs, vulnRanges u) :
    0 ≤ min (calculate_hdfm_score v
        (calculate_entropy_weights (metricsOf vs)) eta) 1
    ∧ min (calculate_hdfm_score v
        (calculate_entropy_weights (metricsOf vs)) eta) 1 ≤ 1 := by
  refine ⟨le_min ?_ zero_le_one, min_le_right _ _⟩
  have hrow : ∀ row ∈ metricsOf vs, 0 ≤ row.severity ∧ 0 ≤ row.tcs ∧
      0 ≤ row.vei ∧ 0 ≤ row.exploitability := by
    intro row hr
    obtain ⟨u, hu, rfl⟩ := List.mem_map.mp hr
    obtain ⟨_, _, h1, _, h2, _, h3, _, _, _, h4, _⟩ := hranges u hu
    exact ⟨h1, h2, h3, h4⟩
  have hw3 := entropy_weights_getD_nonneg (metricsOf vs) hrow 0.3 (by norm_num)
  have hw1 := entropy_weights_getD_nonneg (metricsOf vs) hrow 0.1 (by norm_num)
  obtain ⟨hv1, _, hv2, _, hv3, _, hv4, _, _, _, hv5, _⟩ := hranges v hv
  have hbase : 0 ≤ v.exploitability *
        ((calculate_entropy_weights (metricsOf vs)).exploitability.getD 0.3) +
      v.severity *
        ((calculate_entropy_weights (metricsOf vs)).severity.getD 0.3) +
      v.vei * ((calculate_entropy_weights (metricsOf vs)).vei.getD 0.1) +
      v.tcs * ((calculate_entropy_weights (metricsOf vs)).tcs.getD 0.3) := by
    have := hw3.1
    have := hw3.2.1
    have := hw3.2.2.2
    have := hw1.2.2.1
    have e1 : 0 ≤ v.exploitability *
        ((calculate_entropy_weights (metricsOf vs)).exploitability.getD 0.3) :=
      mul_nonneg hv5 hw3.2.2.2
    have e2 : 0 ≤ v.severity *
        ((calculate_entropy_weights (metricsOf vs)).severity.getD 0.3) :=
      mul_nonneg hv2 hw3.1
    have e3 : 0 ≤ v.vei *
        ((calculate_entropy_weights (metricsOf vs)).vei.getD 0.1) :=
      mul_nonneg hv4 hw1.2.2.1
    have e4 : 0 ≤ v.tcs *
        ((calculate_entropy_weights (metricsOf vs)).tcs.getD 0.3) :=
      mul_nonneg hv3 hw3.2.1
    linarith
  unfold calculate_hdfm_score
  dsimp only
  split_ifs <;> exact mul_nonneg hbase (by norm_num)

/-- Witness for C3 on a singleton population with all-zero metrics. -/
theorem C3_hdfm_score_range_witness :
    0 ≤ min (calculate_hdfm_score zeroVulnR
        (calculate_entropy_weights (metricsOf [zeroVulnR])) 0) 1
    ∧ min (calculate_hdfm_score zeroVulnR
        (calculate_entropy_weights (metricsOf [zeroVulnR])) 0) 1 ≤ 1 :=
  C3_hdfm_score_range [zeroVulnR] zeroVulnR 0 (List.mem_singleton.mpr rfl)
    (by intro u hu
        rw [List.mem_singleton] at hu
        subst hu
        unfold vulnRanges zeroVulnR
        norm_num)
